import Mathlib

/-!
# Cutieview core: shallow embedding

This file embeds the core of the Cutieview wallpaper browser
(`src/functions.py`) in Lean 4 and proves properties of the embedding:

* `list_image_files` — the directory scanner (extension filtering,
  optional recursion via an `os.walk` trace, optional result limit,
  Python truthiness of the limit, and the `try/except` that degrades
  filesystem errors to a partial result).
* `load_thumbnails` — the thumbnail decoder loop over per-path decode
  outcomes, with Qt's `QPixmap.scaled(w, h, KeepAspectRatio, ...)`
  size computation embedded from Qt's `QSize.scaled` algorithm
  (integer division, followed by clamping both dimensions to at
  least 1 as `QPixmap.scaled` does).
* `stop_qtimer` — the timer teardown helper with its nested
  `try/except` blocks made explicit over an abstract timer state.
* `FlowLayout.doLayout` — the flow layout pass, with Qt's
  `QRect.right() = x() + width() - 1` convention made explicit.

Filesystem access is represented by the data the Python code reads
from the OS: a directory listing that may fail (`Option`), an
`os.path.isfile` oracle, and an `os.walk` entry stream in which an
entry may be an error raised to the consuming loop partway through
the walk (`WalkEntry.err`), which the scanner's `except` clause
swallows.
-/

/-! ## Python string helpers used by the scanner -/

/-- `str.lower()` restricted to the ASCII range, which is all the
extension filter ever compares. -/
def pyLower (s : String) : String :=
  String.mk (s.toList.map Char.toLower)

/-- The extension part (including the leading dot) returned by
`os.path.splitext(name)` for a bare file name: the suffix starting at
the last dot, except that leading dots of the name never begin an
extension (`.bashrc` has no extension). -/
def splitextExt (name : String) : String :=
  let cs := name.toList
  let rest := cs.dropWhile (fun c => c = '.')
  if rest.contains '.' then
    String.mk ('.' :: (rest.reverse.takeWhile (fun c => c ≠ '.')).reverse)
  else ""

/-- `os.path.join(d, n)` for a relative entry name `n`, as used on
the names produced by `os.listdir`/`os.walk`. -/
def pjoin (d n : String) : String :=
  if d = "" then n
  else if d.toList.getLast? = some '/' then d ++ n
  else d ++ "/" ++ n

/-- Python's `<=` on strings, on the underlying character lists:
lexicographic comparison by code point. -/
def pyStrLe : List Char → List Char → Bool
  | [], _ => true
  | _ :: _, [] => false
  | a :: as_, b :: bs =>
    if a.toNat < b.toNat then true
    else if b.toNat < a.toNat then false
    else pyStrLe as_ bs

/-- Insert a string into an already sorted list, keeping the list
sorted in Python's lexicographic (code-point) string order. -/
def pyInsert (a : String) : List String → List String
  | [] => [a]
  | b :: bs => if pyStrLe a.toList b.toList then a :: b :: bs else b :: pyInsert a bs

/-- Python's `sorted` on a list of names: a stable ascending sort in
code-point order, realised as insertion sort. -/
def pysorted : List String → List String
  | [] => []
  | a :: rest => pyInsert a (pysorted rest)

/-! ## The directory scanner -/

/-- `DEFAULT_IMAGE_EXTS` from `functions.py` (used only through
membership, so a list stands in for the Python set). -/
def DEFAULT_IMAGE_EXTS : List String :=
  [".png", ".jpg", ".jpeg", ".gif", ".bmp", ".webp", ".tiff"]

/-- Normalisation of the `exts` argument:
`{e.lower() if e.startswith('.') else f'.\x7be.lower()\x7d' for e in exts}`,
with `None` selecting the default set. -/
def normExts : Option (List String) → List String
  | none => DEFAULT_IMAGE_EXTS
  | some es => es.map (fun e => if e.toList.head? = some '.' then pyLower e else "." ++ pyLower e)

/-- Python truthiness-guarded limit test
`limit and len(results) >= limit`: false when `limit` is `None` or
`0`, otherwise the length comparison. -/
def limitHit (limit : Option Int) (n : Nat) : Bool :=
  match limit with
  | none => false
  | some v => decide (v ≠ 0 ∧ v ≤ (n : Int))

/-- One step of `os.walk` as consumed by the scanner: either a
`(root, dirs, files)` triple (`dirs` is unused by the code), or an
error raised out of the generator into the scanner's `try` block. -/
inductive WalkEntry where
  | ok (root : String) (files : List String)
  | err
deriving DecidableEq

/-- The filesystem state the scanner reads: the `os.listdir` result
for the scanned directory (`none` when `os.listdir` raises), the
`os.path.isfile` oracle, and the `os.walk` entry stream. -/
structure FS where
  listing : Option (List String)
  isfile : String → Bool
  walk : List WalkEntry

/-- The non-recursive scanning loop of `list_image_files`: for each
sorted name, skip non-files, filter by lowercased extension, append
the joined path and honour the limit check (whose `break` returns the
accumulated results). -/
def scanNames (dirPath : String) (extsSet : List String) (limit : Option Int)
    (isfile : String → Bool) : List String → List String → List String
  | [], acc => acc
  | n :: ns, acc =>
    let full := pjoin dirPath n
    if isfile full then
      if pyLower (splitextExt n) ∈ extsSet then
        let acc' := acc ++ [full]
        if limitHit limit acc'.length then acc'
        else scanNames dirPath extsSet limit isfile ns acc'
      else scanNames dirPath extsSet limit isfile ns acc
    else scanNames dirPath extsSet limit isfile ns acc

/-- The inner loop of the recursive branch over one walk entry's
sorted file names; the boolean records whether the limit check fired
(the Python `return results`). -/
def recFiles (root : String) (extsSet : List String) (limit : Option Int) :
    List String → List String → List String × Bool
  | [], acc => (acc, false)
  | n :: ns, acc =>
    if pyLower (splitextExt n) ∈ extsSet then
      let acc' := acc ++ [pjoin root n]
      if limitHit limit acc'.length then (acc', true)
      else recFiles root extsSet limit ns acc'
    else recFiles root extsSet limit ns acc

/-- The recursive branch's loop over the `os.walk` stream.  An `err`
entry is the exception reaching the scanner's `except` clause, which
returns the results accumulated so far. -/
def recLoop (extsSet : List String) (limit : Option Int) :
    List WalkEntry → List String → List String
  | [], acc => acc
  | WalkEntry.err :: _, acc => acc
  | WalkEntry.ok root files :: rest, acc =>
    let r := recFiles root extsSet limit (pysorted files) acc
    if r.2 then r.1 else recLoop extsSet limit rest r.1

/-- `list_image_files(dir_path, exts, recursive, limit)` from
`functions.py`, over a filesystem state `fs`.  An empty `dir_path` is
falsy and short-circuits to `[]`; a failing `os.listdir` is caught by
the `except` clause with nothing accumulated yet. -/
def list_image_files (fs : FS) (dirPath : String) (exts : Option (List String))
    (recursive : Bool) (limit : Option Int) : List String :=
  if dirPath = "" then []
  else
    let extsSet := normExts exts
    if recursive then
      recLoop extsSet limit fs.walk []
    else
      match fs.listing with
      | none => []
      | some names => scanNames dirPath extsSet limit fs.isfile (pysorted names) []

/-! ## The thumbnail decoder -/

/-- Qt's `QSize.scaled(w, h, Qt.KeepAspectRatio)` for a source size
`(sw, sh)`: if either source dimension is zero the target is returned
unchanged; otherwise the candidate width `rw = h * sw / sh` (integer
division) selects the height-bound scaling when it fits in `w`, else
the width-bound scaling. -/
def qsizeScaled (sw sh w h : Nat) : Nat × Nat :=
  if sw = 0 ∨ sh = 0 then (w, h)
  else
    let rw := h * sw / sh
    if rw ≤ w then (rw, h) else (w, w * sh / sw)

/-- Qt's `QPixmap.scaled(w, h, Qt.KeepAspectRatio, ...)` size for a
pixmap of size `(sw, sh)`: a zero (in Qt, zero-or-negative) target
dimension yields a null pixmap of size `(0, 0)`; otherwise the
`QSize.scaled` result with both dimensions clamped up to at least 1,
as `QPixmap.scaled` does before transforming. -/
def pixmapScaled (sw sh w h : Nat) : Nat × Nat :=
  if w = 0 ∨ h = 0 then (0, 0)
  else
    let n := qsizeScaled sw sh w h
    (max n.1 1, max n.2 1)

/-- One path's decode outcome as seen by `load_thumbnails`:
`none` when `QPixmap(path)` raised, `some (sw, sh)` for a constructed
pixmap of that size (a null pixmap has a zero dimension). -/
abbrev DecodeOutcome := Option (Nat × Nat)

/-- One iteration of the `load_thumbnails` loop: a raising decode
(`none`) or a null pixmap is skipped (`continue`), any other pixmap
is scaled to `(w, h)` and paired with its path. -/
def decodeStep (w h : Nat) (e : String × DecodeOutcome) : Option (String × (Nat × Nat)) :=
  match e.2 with
  | none => none
  | some (sw, sh) =>
    if sw = 0 ∨ sh = 0 then none
    else some (e.1, pixmapScaled sw sh w h)

/-- The per-path loop of `load_thumbnails` over the decode outcomes
of its input paths, appending the surviving `(path, bitmap)` pairs in
input order. -/
def load_thumbnails (w h : Nat) (entries : List (String × DecodeOutcome)) :
    List (String × (Nat × Nat)) :=
  entries.filterMap (decodeStep w h)

/-- Aspect-ratio preservation up to integer rounding: the
cross-multiplied widths/heights of the thumbnail `(tw, th)` and the
source `(sw, sh)` differ by less than `max sw sh`, i.e. by less than
one pixel of rounding in the constrained dimension. -/
def aspectClose (sw sh tw th : Nat) : Prop :=
  ((tw * sh : Nat) : Int) < ((th * sw : Nat) : Int) + (max sw sh : Nat) ∧
  ((th * sw : Nat) : Int) < ((tw * sh : Nat) : Int) + (max sw sh : Nat)

/-! ## The refresh scheduler's stop operation -/

/-- The observable state of a `QTimer` as far as `stop_qtimer` is
concerned, together with flags saying whether its `stop()` and
`deleteLater()` calls raise (the code guards both). -/
structure QTimerState where
  active : Bool
  deleted : Bool
  stopRaises : Bool
  deleteRaises : Bool
deriving DecidableEq

/-- `timer.stop()`: deactivates the timer, or raises. -/
def qtimer_stop (t : QTimerState) : Except Unit QTimerState :=
  if t.stopRaises then Except.error () else Except.ok { t with active := false }

/-- `timer.deleteLater()`: schedules deletion, or raises. -/
def qtimer_deleteLater (t : QTimerState) : Except Unit QTimerState :=
  if t.deleteRaises then Except.error () else Except.ok { t with deleted := true }

/-- `stop_qtimer(timer)` from `functions.py`: `None` is returned
untouched; otherwise `stop()` then `deleteLater()` are attempted,
each inside a `try/except` that swallows the error, so the function
itself never raises (its result is always `Except.ok`). -/
def stop_qtimer (s : Option QTimerState) : Except Unit (Option QTimerState) :=
  match s with
  | none => Except.ok none
  | some t =>
    match qtimer_stop t with
    | Except.error _ => Except.ok (some t)
    | Except.ok t1 =>
      match qtimer_deleteLater t1 with
      | Except.error _ => Except.ok (some t1)
      | Except.ok t2 => Except.ok (some t2)

/-! ## The flow layout -/

/-- A layout item as `doLayout` sees it: the width and height of its
`sizeHint()`. -/
structure Tile where
  w : Nat
  h : Nat
deriving DecidableEq

/-- The `QRect(x, y, width, _)` handed to `doLayout`; per Qt,
`right()` is `x + width - 1`. -/
structure Rect where
  x : Int
  y : Int
  w : Int
deriving DecidableEq

namespace FlowLayout

/-- The mutable loop state of `doLayout`: the pen position and the
current row's maximum item height. -/
structure LayoutSt where
  x : Int
  y : Int
  lineHeight : Int
deriving DecidableEq

/-- One iteration of the `doLayout` loop on item `t`: wrap to a new
row when `nextX - spaceX > rect.right()` (with `right() = x + w - 1`)
and the current row has positive height, then record the placement
and advance the pen. Returns the new state and the item's placement. -/
def doLayoutStep (spacing : Int) (r : Rect) (st : LayoutSt) (t : Tile) :
    LayoutSt × (Int × Int) :=
  if st.x + (t.w : Int) > r.x + r.w - 1 ∧ 0 < st.lineHeight then
    let y2 := st.y + st.lineHeight + spacing
    (⟨r.x + (t.w : Int) + spacing, y2, max 0 (t.h : Int)⟩, (r.x, y2))
  else
    (⟨st.x + (t.w : Int) + spacing, st.y, max st.lineHeight (t.h : Int)⟩, (st.x, st.y))

/-- The `doLayout` loop over the item list, accumulating placements
and threading the state. -/
def doLayoutGo (spacing : Int) (r : Rect) : LayoutSt → List Tile → List (Int × Int) × LayoutSt
  | st, [] => ([], st)
  | st, t :: ts =>
    let p := doLayoutStep spacing r st t
    let rest := doLayoutGo spacing r p.1 ts
    (p.2 :: rest.1, rest.2)

/-- `FlowLayout.doLayout(rect, testOnly)` from `functions.py`: the
placements assigned to the items (what `setGeometry` receives when
`testOnly` is false) and the returned height
`y + lineHeight - rect.y()`. -/
def doLayout (spacing : Int) (r : Rect) (tiles : List Tile) : List (Int × Int) × Int :=
  let g := doLayoutGo spacing r ⟨r.x, r.y, 0⟩ tiles
  (g.1, g.2.y + g.2.lineHeight - r.y)

end FlowLayout

/-! ## Theorems -/

/-- The non-recursive loop on an exhausted name list returns the
accumulator. -/
theorem scanNames_nil (d : String) (E : List String) (lim : Option Int) (f : String → Bool)
    (acc : List String) : scanNames d E lim f [] acc = acc := rfl

/-- With `limit = None` the Python guard `limit and ...` is falsy. -/
theorem limitHit_none (n : Nat) : limitHit none n = false := rfl

/-- The unlimited non-recursive loop only ever appends to its
accumulator. -/
theorem scanNames_none_append (d : String) (E : List String) (f : String → Bool)
    (ns : List String) (acc : List String) :
    scanNames d E none f ns acc = acc ++ scanNames d E none f ns [] := by
  induction ns generalizing acc with
  | nil => simp [scanNames]
  | cons n ns ih =>
    simp only [scanNames, limitHit]
    by_cases hf : f (pjoin d n)
    · by_cases he : pyLower (splitextExt n) ∈ E
      · simp only [hf, he, if_true, if_false, Bool.false_eq_true, ite_false]
        rw [ih (acc ++ [pjoin d n])]
        simp only [List.nil_append]
        rw [ih [pjoin d n]]
        simp [List.append_assoc]
      · simp only [hf, he, if_true, if_false]
        exact ih acc
    · simp only [hf, if_false, Bool.false_eq_true, ite_false]
      exact ih acc

/-- Unfolding of one non-recursive loop iteration. -/
theorem scanNames_cons (d : String) (E : List String) (lim : Option Int) (f : String → Bool)
    (n : String) (ns acc : List String) :
    scanNames d E lim f (n :: ns) acc =
      if f (pjoin d n) then
        if pyLower (splitextExt n) ∈ E then
          if limitHit lim (acc ++ [pjoin d n]).length then acc ++ [pjoin d n]
          else scanNames d E lim f ns (acc ++ [pjoin d n])
        else scanNames d E lim f ns acc
      else scanNames d E lim f ns acc := rfl

/-- One unlimited non-recursive iteration (the limit check is
falsy). -/
theorem scanNames_none_cons (d : String) (E : List String) (f : String → Bool)
    (n : String) (ns acc : List String) :
    scanNames d E none f (n :: ns) acc =
      if f (pjoin d n) then
        if pyLower (splitextExt n) ∈ E then scanNames d E none f ns (acc ++ [pjoin d n])
        else scanNames d E none f ns acc
      else scanNames d E none f ns acc := rfl

/-- A positive limit makes the non-recursive loop compute exactly the
prefix of the unlimited scan. -/
theorem scanNames_limit_take (d : String) (E : List String) (f : String → Bool)
    (l : Int) (hl : 0 < l) (ns : List String) :
    ∀ acc : List String, (acc.length : Int) < l →
      scanNames d E (some l) f ns acc = (scanNames d E none f ns acc).take l.toNat := by
  induction ns with
  | nil =>
    intro acc hacc
    rw [scanNames_nil, scanNames_nil, List.take_of_length_le (by omega)]
  | cons n ns ih =>
    intro acc hacc
    rw [scanNames_cons, scanNames_none_cons]
    by_cases hf : f (pjoin d n)
    · by_cases he : pyLower (splitextExt n) ∈ E
      · simp only [hf, he, if_true]
        by_cases hstop : limitHit (some l) (acc ++ [pjoin d n]).length
        · rw [if_pos hstop]
          have hlen : l.toNat = (acc ++ [pjoin d n]).length := by
            simp only [limitHit, decide_eq_true_eq, List.length_append,
              List.length_singleton] at hstop ⊢
            omega
          rw [scanNames_none_append d E f ns (acc ++ [pjoin d n]), hlen, List.take_left]
        · rw [if_neg hstop]
          have hlt : ((acc ++ [pjoin d n]).length : Int) < l := by
            simp only [limitHit, decide_eq_true_eq, List.length_append,
              List.length_singleton] at hstop ⊢
            omega
          exact ih (acc ++ [pjoin d n]) hlt
      · simp only [hf, he, if_true, if_false]
        exact ih acc hacc
    · simp only [hf, if_false, Bool.false_eq_true, ite_false]
      exact ih acc hacc

/-- The per-directory loop on an exhausted file list. -/
theorem recFiles_nil (root : String) (E : List String) (lim : Option Int)
    (acc : List String) : recFiles root E lim [] acc = (acc, false) := rfl

/-- Unfolding of one per-directory iteration. -/
theorem recFiles_cons (root : String) (E : List String) (lim : Option Int)
    (n : String) (ns acc : List String) :
    recFiles root E lim (n :: ns) acc =
      if pyLower (splitextExt n) ∈ E then
        if limitHit lim (acc ++ [pjoin root n]).length then (acc ++ [pjoin root n], true)
        else recFiles root E lim ns (acc ++ [pjoin root n])
      else recFiles root E lim ns acc := rfl

/-- One unlimited per-directory iteration. -/
theorem recFiles_none_cons (root : String) (E : List String)
    (n : String) (ns acc : List String) :
    recFiles root E none (n :: ns) acc =
      if pyLower (splitextExt n) ∈ E then recFiles root E none ns (acc ++ [pjoin root n])
      else recFiles root E none ns acc := rfl

/-- The unlimited per-directory loop appends its matches and never
signals an early return. -/
theorem recFiles_none_append (root : String) (E : List String) (ns : List String) :
    ∀ acc : List String,
      recFiles root E none ns acc = (acc ++ (recFiles root E none ns []).1, false) := by
  induction ns with
  | nil => intro acc; simp [recFiles_nil]
  | cons n ns ih =>
    intro acc
    rw [recFiles_none_cons, recFiles_none_cons]
    by_cases he : pyLower (splitextExt n) ∈ E
    · simp only [he, if_true]
      rw [ih (acc ++ [pjoin root n])]
      simp only [List.nil_append]
      rw [ih [pjoin root n]]
      simp [List.append_assoc]
    · simp only [he, if_false]
      exact ih acc

/-- A positive limit makes the per-directory loop compute the prefix
of its unlimited run, stopping exactly when the limit is reached. -/
theorem recFiles_limit (root : String) (E : List String) (l : Int) (hl : 0 < l)
    (ns : List String) :
    ∀ acc : List String, (acc.length : Int) < l →
      recFiles root E (some l) ns acc =
        (((recFiles root E none ns acc).1).take l.toNat,
         decide (l ≤ (((recFiles root E none ns acc).1).length : Int))) := by
  induction ns with
  | nil =>
    intro acc hacc
    rw [recFiles_nil, recFiles_nil]
    simp only
    rw [List.take_of_length_le (by omega)]
    have : ¬ (l ≤ (acc.length : Int)) := by omega
    simp [this]
  | cons n ns ih =>
    intro acc hacc
    rw [recFiles_cons, recFiles_none_cons]
    by_cases he : pyLower (splitextExt n) ∈ E
    · simp only [he, if_true]
      by_cases hstop : limitHit (some l) (acc ++ [pjoin root n]).length
      · rw [if_pos hstop]
        have hlen : l.toNat = (acc ++ [pjoin root n]).length := by
          simp only [limitHit, decide_eq_true_eq, List.length_append,
            List.length_singleton] at hstop ⊢
          omega
        rw [recFiles_none_append root E ns (acc ++ [pjoin root n])]
        simp only
        rw [hlen, List.take_left]
        have hd : decide (l ≤ ((((acc ++ [pjoin root n]) ++ (recFiles root E none ns []).1).length : Nat) : Int)) = true := by
          rw [decide_eq_true_eq]
          simp only [List.length_append, List.length_singleton] at hlen ⊢
          omega
        rw [hd]
      · rw [if_neg hstop]
        have hlt : ((acc ++ [pjoin root n]).length : Int) < l := by
          simp only [limitHit, decide_eq_true_eq, List.length_append,
            List.length_singleton] at hstop ⊢
          omega
        exact ih (acc ++ [pjoin root n]) hlt
    · simp only [he, if_false]
      exact ih acc hacc

/-- The walk loop on an exhausted entry stream. -/
theorem recLoop_nil (E : List String) (lim : Option Int) (acc : List String) :
    recLoop E lim [] acc = acc := rfl

/-- A walk error makes the `except` clause return the results
collected so far. -/
theorem recLoop_err_cons (E : List String) (lim : Option Int) (rest : List WalkEntry)
    (acc : List String) : recLoop E lim (WalkEntry.err :: rest) acc = acc := rfl

/-- Unfolding of one walk iteration. -/
theorem recLoop_ok_cons (E : List String) (lim : Option Int) (root : String)
    (files : List String) (rest : List WalkEntry) (acc : List String) :
    recLoop E lim (WalkEntry.ok root files :: rest) acc =
      if (recFiles root E lim (pysorted files) acc).2
      then (recFiles root E lim (pysorted files) acc).1
      else recLoop E lim rest (recFiles root E lim (pysorted files) acc).1 := rfl

/-- The unlimited walk loop only ever appends to its accumulator. -/
theorem recLoop_none_append (E : List String) (entries : List WalkEntry) :
    ∀ acc : List String, recLoop E none entries acc = acc ++ recLoop E none entries [] := by
  induction entries with
  | nil => intro acc; simp [recLoop_nil]
  | cons e rest ih =>
    intro acc
    match e with
    | WalkEntry.err => simp [recLoop_err_cons]
    | WalkEntry.ok root files =>
      rw [recLoop_ok_cons, recLoop_ok_cons]
      rw [recFiles_none_append root E (pysorted files) acc,
        recFiles_none_append root E (pysorted files) []]
      simp only [Bool.false_eq_true, ite_false, List.nil_append]
      rw [ih (acc ++ (recFiles root E none (pysorted files) []).1),
        ih (recFiles root E none (pysorted files) []).1]
      simp [List.append_assoc]

/-- A positive limit makes the walk loop compute exactly the prefix
of the unlimited walk. -/
theorem recLoop_limit_take (E : List String) (l : Int) (hl : 0 < l)
    (entries : List WalkEntry) :
    ∀ acc : List String, (acc.length : Int) < l →
      recLoop E (some l) entries acc = (recLoop E none entries acc).take l.toNat := by
  induction entries with
  | nil =>
    intro acc hacc
    rw [recLoop_nil, recLoop_nil, List.take_of_length_le (by omega)]
  | cons e rest ih =>
    intro acc hacc
    match e with
    | WalkEntry.err =>
      rw [recLoop_err_cons, recLoop_err_cons, List.take_of_length_le (by omega)]
    | WalkEntry.ok root files =>
      have hA := recFiles_none_append root E (pysorted files) acc
      have hlim := recFiles_limit root E l hl (pysorted files) acc hacc
      rw [recLoop_ok_cons, recLoop_ok_cons, hlim, hA]
      dsimp only
      simp only [Bool.false_eq_true, ite_false]
      by_cases hle : l ≤ ((acc ++ (recFiles root E none (pysorted files) []).1).length : Int)
      · rw [if_pos (decide_eq_true hle)]
        have hlen : l.toNat ≤ (acc ++ (recFiles root E none (pysorted files) []).1).length := by
          omega
        rw [recLoop_none_append E rest (acc ++ (recFiles root E none (pysorted files) []).1)]
        conv_rhs => rw [List.take_append_of_le_length hlen]
      · rw [if_neg (by simp only [decide_eq_true_eq]; exact hle)]
        rw [List.take_of_length_le (by omega :
          (acc ++ (recFiles root E none (pysorted files) []).1).length ≤ l.toNat)]
        have hlapp : (acc ++ (recFiles root E none (pysorted files) []).1).length =
            acc.length + (recFiles root E none (pysorted files) []).1.length :=
          List.length_append _ _
        exact ih (acc ++ (recFiles root E none (pysorted files) []).1) (by omega)

/-- C3 (amended): for every filesystem state, directory, extension
set and recursion mode, a *positive* integer limit `l` makes
`list_image_files` return exactly the first `l` entries of the
unlimited scan — so its length never exceeds `l` and collection stops
as soon as `l` matches are gathered.  (The claim's "any non-None
integer" fails at `limit = 0`, which Python's truthiness test treats
as no limit; see the counterexample.) -/
theorem scanner_limit_take (fs : FS) (dirPath : String) (exts : Option (List String))
    (recursive : Bool) (l : Int) (hl : 1 ≤ l) :
    list_image_files fs dirPath exts recursive (some l) =
      (list_image_files fs dirPath exts recursive none).take l.toNat ∧
    (list_image_files fs dirPath exts recursive (some l)).length ≤ l.toNat := by
  obtain ⟨lst, isf, wk⟩ := fs
  have hmain : list_image_files ⟨lst, isf, wk⟩ dirPath exts recursive (some l) =
      (list_image_files ⟨lst, isf, wk⟩ dirPath exts recursive none).take l.toNat := by
    unfold list_image_files
    by_cases hd : dirPath = ""
    · simp [hd]
    · simp only [hd, if_false, Bool.false_eq_true, ite_false]
      by_cases hr : recursive
      · simp only [hr, if_true]
        exact recLoop_limit_take (normExts exts) l (by omega) wk []
          (by simp only [List.length_nil, Nat.cast_zero]; omega)
      · simp only [hr, Bool.false_eq_true, ite_false]
        match lst with
        | none => simp
        | some names =>
          exact scanNames_limit_take dirPath (normExts exts) isf l (by omega)
            (pysorted names) [] (by simp only [List.length_nil, Nat.cast_zero]; omega)
  exact ⟨hmain, by rw [hmain]; exact List.length_take_le _ _⟩

/-- With `limit = 0` the Python guard `limit and ...` is falsy. -/
theorem limitHit_zero (n : Nat) : limitHit (some 0) n = false := by
  simp [limitHit]

/-- `limit = 0` behaves as no limit in the non-recursive loop. -/
theorem scanNames_zero_limit (d : String) (E : List String) (f : String → Bool)
    (ns : List String) : ∀ acc : List String,
    scanNames d E (some 0) f ns acc = scanNames d E none f ns acc := by
  induction ns with
  | nil => intro acc; rfl
  | cons n ns ih =>
    intro acc
    rw [scanNames_cons, scanNames_none_cons]
    by_cases hf : f (pjoin d n)
    · by_cases he : pyLower (splitextExt n) ∈ E
      · simp only [hf, he, if_true, limitHit_zero, Bool.false_eq_true, ite_false]
        exact ih _
      · simp only [hf, he, if_true, if_false]
        exact ih _
    · simp only [hf, if_false, Bool.false_eq_true, ite_false]
      exact ih _

/-- `limit = 0` behaves as no limit in the per-directory loop. -/
theorem recFiles_zero_limit (root : String) (E : List String)
    (ns : List String) : ∀ acc : List String,
    recFiles root E (some 0) ns acc = recFiles root E none ns acc := by
  induction ns with
  | nil => intro acc; rfl
  | cons n ns ih =>
    intro acc
    rw [recFiles_cons, recFiles_none_cons]
    by_cases he : pyLower (splitextExt n) ∈ E
    · simp only [he, if_true, limitHit_zero, Bool.false_eq_true, ite_false]
      exact ih _
    · simp only [he, if_false]
      exact ih _

/-- `limit = 0` behaves as no limit in the walk loop. -/
theorem recLoop_zero_limit (E : List String) (entries : List WalkEntry) :
    ∀ acc : List String, recLoop E (some 0) entries acc = recLoop E none entries acc := by
  induction entries with
  | nil => intro acc; rfl
  | cons e rest ih =>
    intro acc
    match e with
    | WalkEntry.err => rfl
    | WalkEntry.ok root files =>
      rw [recLoop_ok_cons, recLoop_ok_cons, recFiles_zero_limit root E (pysorted files) acc]
      by_cases hstop : (recFiles root E none (pysorted files) acc).2
      · simp [hstop]
      · simp only [hstop, Bool.false_eq_true, ite_false]
        exact ih _

/-- C9: calling `list_image_files` with `limit = 0` is the same as
calling it with no limit at all: `0` is falsy in the guard
`limit and len(results) >= limit`, so the scan never stops early and
every matching file is returned (not the empty sequence). -/
theorem scanner_limit_zero (fs : FS) (dirPath : String) (exts : Option (List String))
    (recursive : Bool) :
    list_image_files fs dirPath exts recursive (some 0) =
      list_image_files fs dirPath exts recursive none := by
  obtain ⟨lst, isf, wk⟩ := fs
  unfold list_image_files
  by_cases hd : dirPath = ""
  · simp [hd]
  · simp only [hd, if_false, Bool.false_eq_true, ite_false]
    by_cases hr : recursive
    · simp only [hr, if_true]
      exact recLoop_zero_limit (normExts exts) wk []
    · simp only [hr, Bool.false_eq_true, ite_false]
      match lst with
      | none => rfl
      | some names => exact scanNames_zero_limit dirPath (normExts exts) isf (pysorted names) []

/-- An error in the walk stream makes the loop return what was
collected up to that entry; later entries are unreachable. -/
theorem recLoop_stops_at_err (E : List String) (lim : Option Int)
    (pre post : List WalkEntry) : ∀ acc : List String,
    recLoop E lim (pre ++ WalkEntry.err :: post) acc = recLoop E lim pre acc := by
  induction pre with
  | nil => intro acc; rfl
  | cons e rest ih =>
    intro acc
    match e with
    | WalkEntry.err => rfl
    | WalkEntry.ok root files =>
      rw [List.cons_append, recLoop_ok_cons, recLoop_ok_cons]
      by_cases hstop : (recFiles root E lim (pysorted files) acc).2
      · simp [hstop]
      · simp only [hstop, Bool.false_eq_true, ite_false]
        exact ih _

/-- C10: if the walk raises partway through a recursive scan, the
`except` clause returns exactly the matches collected from the
entries before the error — a possibly non-empty partial result — and
the function still returns normally (no exception escapes): the
result equals that of scanning the error-free prefix of the walk. -/
theorem scanner_partial_on_error (listing : Option (List String)) (isfile : String → Bool)
    (pre post : List WalkEntry) (dirPath : String) (exts : Option (List String))
    (limit : Option Int) :
    list_image_files ⟨listing, isfile, pre ++ WalkEntry.err :: post⟩ dirPath exts true limit =
      list_image_files ⟨listing, isfile, pre⟩ dirPath exts true limit := by
  unfold list_image_files
  by_cases hd : dirPath = ""
  · simp [hd]
  · simp only [hd, if_false, if_true]
    exact recLoop_stops_at_err (normExts exts) limit pre post []

/-- C6: an empty `dir_path`, a failing `os.listdir` (missing or
unreadable directory, non-recursive mode), a walk that fails
immediately, and a walk of a missing directory (which yields no
entries) all make `list_image_files` return the empty list, raising
nothing to the caller. -/
theorem scanner_degrades_to_empty :
    (∀ (fs : FS) (exts : Option (List String)) (recursive : Bool) (limit : Option Int),
       list_image_files fs "" exts recursive limit = []) ∧
    (∀ (isfile : String → Bool) (walk : List WalkEntry) (dirPath : String)
       (exts : Option (List String)) (limit : Option Int),
       list_image_files ⟨none, isfile, walk⟩ dirPath exts false limit = []) ∧
    (∀ (listing : Option (List String)) (isfile : String → Bool) (dirPath : String)
       (exts : Option (List String)) (limit : Option Int) (post : List WalkEntry),
       list_image_files ⟨listing, isfile, WalkEntry.err :: post⟩ dirPath exts true limit = []) ∧
    (∀ (listing : Option (List String)) (isfile : String → Bool) (dirPath : String)
       (exts : Option (List String)) (limit : Option Int),
       list_image_files ⟨listing, isfile, []⟩ dirPath exts true limit = []) := by
  refine ⟨?_, ?_, ?_, ?_⟩
  · intro fs exts recursive limit
    simp [list_image_files]
  · intro isfile walk dirPath exts limit
    by_cases hd : dirPath = "" <;> simp [list_image_files, hd]
  · intro listing isfile dirPath exts limit post
    by_cases hd : dirPath = "" <;> simp [list_image_files, hd, recLoop_err_cons]
  · intro listing isfile dirPath exts limit
    by_cases hd : dirPath = "" <;> simp [list_image_files, hd, recLoop_nil]

/-- The C2 scenario directory: exactly `a.png`, `b.txt`, `C.JPG`,
all regular files. -/
def fsThree : FS :=
  { listing := some ["a.png", "b.txt", "C.JPG"], isfile := fun _ => true, walk := [] }

/-- C2 counterexample: scanning a directory holding exactly `a.png`,
`b.txt`, `C.JPG` with the default extensions does NOT return
`[a.png, C.JPG]`: Python's `sorted` compares code points, and
`'C'` (67) precedes `'a'` (97). -/
theorem scan_scenario_counterexample :
    list_image_files fsThree "d" none false none ≠ ["d/a.png", "d/C.JPG"] := by
  decide

/-- C2 (amended): scanning a directory holding exactly `a.png`,
`b.txt`, `C.JPG` with the default extensions returns
`[C.JPG, a.png]`: extension matching is case-insensitive, but the
lexicographic order is by code point, so the capitalised name sorts
first. -/
theorem scan_scenario_actual_order :
    list_image_files fsThree "d" none false none = ["d/C.JPG", "d/a.png"] := by
  decide

/-- A directory with a single matching file. -/
def fsOne : FS :=
  { listing := some ["a.png"], isfile := fun _ => true, walk := [] }

/-- C3 counterexample: `limit = 0` is a non-None integer, yet the
scan of a directory with one matching file returns that file — the
result length exceeds the limit, because `0` is falsy in the guard
`limit and len(results) >= limit`. -/
theorem limit_zero_counterexample :
    list_image_files fsOne "d" none false (some 0) = ["d/a.png"] ∧
    ¬ (list_image_files fsOne "d" none false (some 0)).length ≤ 0 := by
  decide

/-- A directory with two matching files. -/
def fsTwo : FS :=
  { listing := some ["a.png", "b.png"], isfile := fun _ => true, walk := [] }

/-- Witness for C3 at `l = 1` on a directory with two matching
files. -/
theorem scanner_limit_take_witness :
    list_image_files fsTwo "d" none false (some 1) =
      (list_image_files fsTwo "d" none false none).take (1 : Int).toNat ∧
    (list_image_files fsTwo "d" none false (some 1)).length ≤ (1 : Int).toNat :=
  scanner_limit_take fsTwo "d" none false 1 (by decide)

/-- C5: for every input sequence of decode outcomes and every target
size, `load_thumbnails` never aborts the batch: failed or null
decodes are skipped per item, the output is never longer than the
input, and the surviving paths appear in input order (the output path
list is a sublist of the input path list). -/
theorem decoder_skips_keep_order (w h : Nat) (entries : List (String × DecodeOutcome)) :
    (load_thumbnails w h entries).length ≤ entries.length ∧
    List.Sublist ((load_thumbnails w h entries).map Prod.fst) (entries.map Prod.fst) := by
  constructor
  · exact List.length_filterMap_le _ _
  · induction entries with
    | nil => simp [load_thumbnails]
    | cons e es ih =>
      obtain ⟨p, r⟩ := e
      match r with
      | none =>
        simp only [load_thumbnails, List.filterMap_cons, decodeStep, List.map_cons]
        exact List.Sublist.cons p ih
      | some (sw, sh) =>
        by_cases hz : sw = 0 ∨ sh = 0
        · simp only [load_thumbnails, List.filterMap_cons, decodeStep, hz, if_true, List.map_cons]
          exact List.Sublist.cons p ih
        · simp only [load_thumbnails, List.filterMap_cons, decodeStep, hz, if_false, List.map_cons]
          exact List.Sublist.cons₂ p ih

/-- The scaled size fits inside the requested box. -/
theorem pixmapScaled_fits (sw sh w h : Nat) (hsw : 1 ≤ sw) (hsh : 1 ≤ sh) :
    (pixmapScaled sw sh w h).1 ≤ w ∧ (pixmapScaled sw sh w h).2 ≤ h := by
  unfold pixmapScaled qsizeScaled
  by_cases h0 : w = 0 ∨ h = 0
  · simp [h0]
  · have hz : ¬ (sw = 0 ∨ sh = 0) := by omega
    have hw : 1 ≤ w := by omega
    have hh : 1 ≤ h := by omega
    simp only [h0, hz, if_false]
    by_cases hle : h * sw / sh ≤ w
    · simp only [hle, if_true]
      exact ⟨Nat.max_le.mpr ⟨hle, hw⟩, Nat.max_le.mpr ⟨Nat.le_refl h, hh⟩⟩
    · simp only [hle, if_false]
      have h1 : w + 1 ≤ h * sw / sh := Nat.succ_le_of_lt (Nat.lt_of_not_le hle)
      have h2 : (w + 1) * sh ≤ h * sw := (Nat.le_div_iff_mul_le (by omega)).mp h1
      have h3 : w * sh < h * sw := by
        have hstep : w * sh < (w + 1) * sh := by
          have : w * sh + sh = (w + 1) * sh := by ring
          omega
        omega
      have h4 : w * sh / sw < h := (Nat.div_lt_iff_lt_mul (by omega)).mpr h3
      exact ⟨Nat.max_le.mpr ⟨Nat.le_refl w, hw⟩, Nat.max_le.mpr ⟨Nat.le_of_lt h4, hh⟩⟩

/-- The scaled size preserves the source aspect ratio up to one
pixel of integer rounding. -/
theorem pixmapScaled_aspect (sw sh w h : Nat) (hsw : 1 ≤ sw) (hsh : 1 ≤ sh) :
    aspectClose sw sh (pixmapScaled sw sh w h).1 (pixmapScaled sw sh w h).2 := by
  have hM1 : sh ≤ max sw sh := Nat.le_max_right sw sh
  have hM2 : sw ≤ max sw sh := Nat.le_max_left sw sh
  unfold pixmapScaled qsizeScaled aspectClose
  by_cases h0 : w = 0 ∨ h = 0
  · simp only [h0, if_true]
    constructor
    · exact_mod_cast (show 0 * sh < 0 * sw + max sw sh by omega)
    · exact_mod_cast (show 0 * sw < 0 * sh + max sw sh by omega)
  · have hz : ¬ (sw = 0 ∨ sh = 0) := by omega
    have hw : 1 ≤ w := by omega
    have hh : 1 ≤ h := by omega
    simp only [h0, hz, if_false]
    by_cases hle : h * sw / sh ≤ w
    · simp only [hle, if_true]
      rw [Nat.max_eq_left hh]
      have hdm : h * sw / sh * sh + h * sw % sh = h * sw := Nat.div_add_mod' (h * sw) sh
      have hmod : h * sw % sh < sh := Nat.mod_lt _ (by omega)
      have hpos : 1 ≤ h * sw := Nat.mul_pos hh hsw
      by_cases hrw : h * sw / sh = 0
      · rw [hrw] at hdm ⊢
        simp only [Nat.zero_max]
        constructor
        · exact_mod_cast (show 1 * sh < h * sw + max sw sh by omega)
        · exact_mod_cast (show h * sw < 1 * sh + max sw sh by omega)
      · rw [Nat.max_eq_left (Nat.one_le_iff_ne_zero.mpr hrw)]
        constructor
        · exact_mod_cast (show h * sw / sh * sh < h * sw + max sw sh by omega)
        · exact_mod_cast (show h * sw < h * sw / sh * sh + max sw sh by omega)
    · simp only [hle, if_false]
      rw [Nat.max_eq_left hw]
      have hdm : w * sh / sw * sw + w * sh % sw = w * sh := Nat.div_add_mod' (w * sh) sw
      have hmod : w * sh % sw < sw := Nat.mod_lt _ (by omega)
      have hpos : 1 ≤ w * sh := Nat.mul_pos hw hsh
      by_cases hrh : w * sh / sw = 0
      · rw [hrh] at hdm ⊢
        simp only [Nat.zero_max]
        constructor
        · exact_mod_cast (show w * sh < 1 * sw + max sw sh by omega)
        · exact_mod_cast (show 1 * sw < w * sh + max sw sh by omega)
      · rw [Nat.max_eq_left (Nat.one_le_iff_ne_zero.mpr hrh)]
        constructor
        · exact_mod_cast (show w * sh < w * sh / sw * sw + max sw sh by omega)
        · exact_mod_cast (show w * sh / sw * sw < w * sh + max sw sh by omega)

/-- C4: every thumbnail produced by `load_thumbnails` fits inside the
requested target box on both dimensions, and its dimensions preserve
the aspect ratio of its (non-null, hence positive-sized) source image
up to one pixel of integer rounding; scaling never exceeds the box
and the image is never cropped (the whole source is scaled). -/
theorem thumbnails_fit_box (w h : Nat) (entries : List (String × DecodeOutcome))
    (p : String) (tw th : Nat)
    (hmem : (p, (tw, th)) ∈ load_thumbnails w h entries) :
    tw ≤ w ∧ th ≤ h ∧
      ∃ sw sh, (p, some (sw, sh)) ∈ entries ∧ 1 ≤ sw ∧ 1 ≤ sh ∧ aspectClose sw sh tw th := by
  obtain ⟨e, hin, heq⟩ := List.mem_filterMap.mp hmem
  obtain ⟨p', r⟩ := e
  match r with
  | none => exact absurd heq (by simp [decodeStep])
  | some (sw, sh) =>
    by_cases hz : sw = 0 ∨ sh = 0
    · simp only [decodeStep] at heq
      rw [if_pos hz] at heq
      exact absurd heq (by simp)
    · simp only [decodeStep] at heq
      rw [if_neg hz] at heq
      simp only [Option.some.injEq, Prod.mk.injEq] at heq
      obtain ⟨hp, hdims⟩ := heq
      have hsw : 1 ≤ sw := by omega
      have hsh : 1 ≤ sh := by omega
      have hfits := pixmapScaled_fits sw sh w h hsw hsh
      have hasp := pixmapScaled_aspect sw sh w h hsw hsh
      rw [hdims] at hfits hasp
      subst hp
      exact ⟨hfits.1, hfits.2, sw, sh, hin, hsw, hsh, hasp⟩

/-- Witness for C4: a 200 x 100 source scaled into a 128 x 128 box
yields a 128 x 64 thumbnail. -/
theorem thumbnails_fit_box_witness :
    128 ≤ 128 ∧ 64 ≤ 128 ∧
      ∃ sw sh, ("a", some (sw, sh)) ∈ [(("a", some (200, 100)) : String × DecodeOutcome)] ∧
        1 ≤ sw ∧ 1 ≤ sh ∧ aspectClose sw sh 128 64 :=
  thumbnails_fit_box 128 128 [("a", some (200, 100))] "a" 128 64 (by decide)

/-- C8: `stop_qtimer` is safe and idempotent: called on `None` (a
never-started scheduler) it is a no-op, and for every timer state the
call returns normally (`Except.ok`, never an error — both inner calls
are wrapped in `try/except`) with a result that is a fixed point of
another `stop_qtimer` call. -/
theorem stop_qtimer_safe :
    stop_qtimer none = Except.ok none ∧
    ∀ s : Option QTimerState, ∃ s' : Option QTimerState,
      stop_qtimer s = Except.ok s' ∧ stop_qtimer s' = Except.ok s' := by
  refine ⟨rfl, ?_⟩
  intro s
  match s with
  | none => exact ⟨none, rfl, rfl⟩
  | some t =>
    by_cases h1 : t.stopRaises
    · refine ⟨some t, ?_, ?_⟩ <;>
        simp [stop_qtimer, qtimer_stop, h1]
    · by_cases h2 : t.deleteRaises
      · refine ⟨some { t with active := false }, ?_, ?_⟩ <;>
          simp [stop_qtimer, qtimer_stop, qtimer_deleteLater, h1, h2]
      · refine ⟨some { t with active := false, deleted := true }, ?_, ?_⟩ <;>
          simp [stop_qtimer, qtimer_stop, qtimer_deleteLater, h1, h2]

/-- The layout pass places every item exactly once. -/
theorem doLayoutGo_length (spacing : Int) (r : Rect) (ts : List Tile) :
    ∀ st : FlowLayout.LayoutSt,
      (FlowLayout.doLayoutGo spacing r st ts).1.length = ts.length := by
  induction ts with
  | nil => intro st; rfl
  | cons t ts ih => intro st; simp [FlowLayout.doLayoutGo, ih]

/-- After placing a positive-height item the row height is positive
and the pen never moves left of the rect origin. -/
theorem doLayoutStep_inv (spacing : Int) (r : Rect) (st : FlowLayout.LayoutSt) (t : Tile)
    (hsp : 0 ≤ spacing) (hth : 1 ≤ t.h) (_hlh : 0 ≤ st.lineHeight) (hxge : r.x ≤ st.x) :
    1 ≤ ((FlowLayout.doLayoutStep spacing r st t).1).lineHeight ∧
    r.x ≤ ((FlowLayout.doLayoutStep spacing r st t).1).x := by
  have htw : (0 : Int) ≤ (t.w : Int) := Int.natCast_nonneg t.w
  have hth' : (1 : Int) ≤ (t.h : Int) := by exact_mod_cast hth
  unfold FlowLayout.doLayoutStep
  by_cases hcond : st.x + (t.w : Int) > r.x + r.w - 1 ∧ 0 < st.lineHeight
  · rw [if_pos hcond]
    have hm : (t.h : Int) ≤ max 0 (t.h : Int) := le_max_right _ _
    exact ⟨by dsimp only; omega, by dsimp only; omega⟩
  · rw [if_neg hcond]
    have hm : (t.h : Int) ≤ max st.lineHeight (t.h : Int) := le_max_right _ _
    exact ⟨by dsimp only; omega, by dsimp only; omega⟩

/-- Any item wider than the rect, wherever it occurs, is placed with
its left edge at the rect origin. -/
theorem doLayoutGo_wide (spacing : Int) (r : Rect) (hsp : 0 ≤ spacing) (ts : List Tile) :
    ∀ st : FlowLayout.LayoutSt,
      (∀ u ∈ ts, 1 ≤ u.h) →
      0 ≤ st.lineHeight → (st.lineHeight = 0 → st.x = r.x) → r.x ≤ st.x →
      ∀ (i : Nat) (t : Tile), ts[i]? = some t → r.w < (t.w : Int) →
        ∃ y, (FlowLayout.doLayoutGo spacing r st ts).1[i]? = some (r.x, y) := by
  induction ts with
  | nil =>
    intro st _ _ _ _ i t hit
    simp at hit
  | cons t0 ts ih =>
    intro st hh h0 hx0 hxge i t hit hwide
    match i with
    | 0 =>
      simp only [List.getElem?_cons_zero, Option.some.injEq] at hit
      subst hit
      refine ⟨((FlowLayout.doLayoutStep spacing r st t0).2).2, ?_⟩
      show ((FlowLayout.doLayoutStep spacing r st t0).2 :: _)[0]? = _
      rw [List.getElem?_cons_zero, Option.some.injEq]
      unfold FlowLayout.doLayoutStep
      by_cases hcond : st.x + (t0.w : Int) > r.x + r.w - 1 ∧ 0 < st.lineHeight
      · rw [if_pos hcond]
      · rw [if_neg hcond]
        have hxw : st.x + (t0.w : Int) > r.x + r.w - 1 := by omega
        have hlh0 : st.lineHeight = 0 := by
          by_contra hne
          exact hcond ⟨hxw, by omega⟩
        have := hx0 hlh0
        dsimp only
        rw [this]
    | Nat.succ j =>
      simp only [List.getElem?_cons_succ] at hit
      have hinv := doLayoutStep_inv spacing r st t0 hsp (hh t0 (by simp)) h0 hxge
      have hnext := ih ((FlowLayout.doLayoutStep spacing r st t0).1)
        (fun u hu => hh u (by simp [hu]))
        (by omega) (by omega) hinv.2 j t hit hwide
      obtain ⟨y, hy⟩ := hnext
      exact ⟨y, by simpa [FlowLayout.doLayoutGo] using hy⟩

/-- C7: under nonnegative spacing and positive tile heights, the flow
layout never rejects or splits a tile (one placement per tile); a
tile that begins the layout is placed exactly at the row origin
`(rect.x, rect.y)` even when wider than the available width, and
every tile wider than the available width is placed with `x = rect.x`
(it overflows to the right instead of being rejected). -/
theorem wide_tile_placed (spacing : Int) (r : Rect) (tiles : List Tile)
    (hsp : 0 ≤ spacing) (hh : ∀ u ∈ tiles, 1 ≤ u.h) :
    (FlowLayout.doLayout spacing r tiles).1.length = tiles.length ∧
    (∀ (t : Tile) (rest : List Tile), tiles = t :: rest →
        (FlowLayout.doLayout spacing r tiles).1[0]? = some (r.x, r.y)) ∧
    (∀ (i : Nat) (t : Tile), tiles[i]? = some t → r.w < (t.w : Int) →
        ∃ y, (FlowLayout.doLayout spacing r tiles).1[i]? = some (r.x, y)) := by
  refine ⟨doLayoutGo_length spacing r tiles _, ?_, ?_⟩
  · intro t rest hcons
    subst hcons
    show ((FlowLayout.doLayoutStep spacing r ⟨r.x, r.y, 0⟩ t).2 :: _)[0]? = _
    rw [List.getElem?_cons_zero, Option.some.injEq]
    unfold FlowLayout.doLayoutStep
    rw [if_neg (fun hc => absurd hc.2 (lt_irrefl 0))]
  · intro i t ht hwide
    exact doLayoutGo_wide spacing r hsp tiles ⟨r.x, r.y, 0⟩ hh (le_refl 0)
      (fun _ => rfl) (le_refl r.x) i t ht hwide

/-- Witness for C7: a single 200-wide tile in a 120-wide rect is
placed at the origin. -/
theorem wide_tile_placed_witness :
    (FlowLayout.doLayout 6 ⟨0, 0, 120⟩ [⟨200, 50⟩]).1.length = 1 ∧
    (∀ (t : Tile) (rest : List Tile), [(⟨200, 50⟩ : Tile)] = t :: rest →
        (FlowLayout.doLayout 6 ⟨0, 0, 120⟩ [⟨200, 50⟩]).1[0]? = some (0, 0)) ∧
    (∀ (i : Nat) (t : Tile), [(⟨200, 50⟩ : Tile)][i]? = some t → 120 < (t.w : Int) →
        ∃ y, (FlowLayout.doLayout 6 ⟨0, 0, 120⟩ [⟨200, 50⟩]).1[i]? = some (0, y)) :=
  wide_tile_placed 6 ⟨0, 0, 120⟩ [⟨200, 50⟩] (by decide) (by decide)

/-- C1 counterexample: with spacing 10 and available width 110, two
50-wide tiles do NOT share a row even though `60 + 50 = 110` does not
strictly exceed the available width: Qt's `rect.right()` is
`x + width - 1`, so a tile whose right edge lands exactly at the
available width wraps — the second tile is placed at `(0, 60)`,
not `(60, 0)`. -/
theorem flow_exact_fit_wraps :
    (FlowLayout.doLayout 10 ⟨0, 0, 110⟩ [⟨50, 50⟩, ⟨50, 50⟩]).1 = [(0, 0), (0, 60)] ∧
    (FlowLayout.doLayout 10 ⟨0, 0, 110⟩ [⟨50, 50⟩, ⟨50, 50⟩]).1 ≠ [(0, 0), (60, 0)] := by
  decide

/-- C1 (amended): a tile is moved to a new row exactly when
`available_width ≤ (current_x - origin_x) + tile.width` — i.e. when
its right edge would reach *or exceed* the available width, since the
code compares against `rect.right() = x + width - 1` — and the
current row already has positive height; in particular an
exactly-fitting tile wraps.  The concrete scenario still holds: for
50-wide tiles, spacing 10, available width 120, tiles 1 and 2 are
placed at `x = 0` and `x = 60` in row 1 and tile 3 wraps to row 2 at
`x = 0`. -/
theorem flow_wrap_policy :
    (FlowLayout.doLayout 10 ⟨0, 0, 120⟩ [⟨50, 50⟩, ⟨50, 50⟩, ⟨50, 50⟩]).1 =
      [(0, 0), (60, 0), (0, 60)] ∧
    ∀ (spacing : Int) (r : Rect) (st : FlowLayout.LayoutSt) (t : Tile),
      (FlowLayout.doLayoutStep spacing r st t).2 =
        if r.w ≤ st.x - r.x + (t.w : Int) ∧ 0 < st.lineHeight
        then (r.x, st.y + st.lineHeight + spacing)
        else (st.x, st.y) := by
  constructor
  · decide
  · intro spacing r st t
    unfold FlowLayout.doLayoutStep
    by_cases hc : st.x + (t.w : Int) > r.x + r.w - 1 ∧ 0 < st.lineHeight
    · obtain ⟨hc1, hc2⟩ := hc
      rw [if_pos ⟨hc1, hc2⟩, if_pos ⟨by omega, hc2⟩]
    · rw [if_neg hc, if_neg (fun hc2 => hc ⟨by omega, hc2.2⟩)]
